import Mathlib

/-!
Verification of the go-ingress repository's path-matching and dispatch
engine, its Kubernetes controller glue, and its auxiliary resolvers.

Go strings are embedded as `List Char` (byte-exact comparison on the ASCII
paths involved); Go `int` as `Int`; Go maps as association lists with a
no-duplicate-keys invariant; fallible calls as `Except`/`Option`.
External library calls (X.509 decoding, bcrypt, base64) are taken as
opaque function parameters, since the repository itself treats them as
black boxes.
-/

set_option maxRecDepth 4000

namespace GoIngress

/-- Embeds a Lean string literal as the byte/char sequence of a Go string. -/
def chars (s : String) : List Char := s.data

/-! ## The `ingress` library package: exact.go, prefix.go, ingress.go -/

/-- `strings.Split(s, "/")` from the Go standard library, specialised to a
one-character separator as used by `getElements` (src/prefix.go). -/
def splitSep (sep : Char) : List Char → List (List Char)
  | [] => [[]]
  | c :: cs =>
    match splitSep sep cs with
    | [] => [[]]
    | e :: es => if c == sep then [] :: e :: es else (c :: e) :: es

/-- `getElements` from src/prefix.go: split the request path on `/` and
drop the empty elements. -/
def getElements (requestPath : List Char) : List (List Char) :=
  (splitSep '/' requestPath).filter (fun e => !e.isEmpty)

/-- `strings.Trim(s, "/")`: drop leading and trailing `/` characters,
as used by `exactPath.Matches` (src/exact.go). -/
def trimSlash (s : List Char) : List Char :=
  ((s.dropWhile (fun c => c == '/')).reverse.dropWhile (fun c => c == '/')).reverse

/-- `reasonableMaxPathMatches` from src/exact.go. -/
def reasonableMaxPathMatches : Int := 4000

/-- `exactPath.Matches` from src/exact.go: weight `reasonableMaxPathMatches`
when the stored path and the request path agree up to leading/trailing
slashes, else `0`. -/
def ExactMatches (path requestPath : List Char) : Int :=
  if trimSlash path = trimSlash requestPath then reasonableMaxPathMatches else 0

/-- The element-comparison loop of `prefixPath.Matches` (src/prefix.go):
`for i, element := range p.elements { if element != elements[i] { return 0 } }`. -/
def matchLoop : List (List Char) → List (List Char) → Bool
  | [], _ => true
  | _ :: _, [] => false
  | p :: ps, e :: es => p == e && matchLoop ps es

/-- `prefixPath.Matches` from src/prefix.go: weight `|elements| + 1` when the
stored element sequence is an element-wise prefix of the request's element
sequence, else `0`. -/
def PrefixMatches (els : List (List Char)) (requestPath : List Char) : Int :=
  let elements := getElements requestPath
  if elements.length < els.length then 0
  else if matchLoop els elements then (els.length : Int) + 1 else 0

/-- The observable outcome of an HTTP handler: status, body and the headers
the repository's handlers set explicitly. -/
structure Response where
  status : Nat
  body : String
  headers : List (String × String)
deriving DecidableEq

/-- `http.Error(w, msg, code)`: writes `msg` followed by a newline. -/
def httpError (msg : String) (code : Nat) : Response :=
  { status := code, body := msg ++ "\n", headers := [] }

/-- `http.NotFound` / `http.NotFoundHandler()`: 404 with body
`404 page not found` and a trailing newline. -/
def notFoundResponse : Response := httpError "404 page not found" 404

/-- A member of the `paths` slice dispatched over by `paths.ServeHTTP`
(src/ingress.go): its `Matches` method and the response its backend writes. -/
structure Path where
  Matches : List Char → Int
  backend : Response

/-- The loop of `paths.ServeHTTP` (src/ingress.go): a negative weight is
served immediately; a weight strictly above the running maximum replaces
the contender; the contender (index and path) is returned at the end,
`none` standing for the initial `http.NotFoundHandler()`. -/
def serveAux (r : List Char) : List Path → Nat → Option (Nat × Path) → Int → Option (Nat × Path)
  | [], _, contender, _ => contender
  | p :: ps, i, contender, strongest =>
    let weight := p.Matches r
    if weight < 0 then some (i, p)
    else if weight > strongest then serveAux r ps (i + 1) (some (i, p)) weight
    else serveAux r ps (i + 1) contender strongest

/-- The candidate `paths.ServeHTTP` hands the request to, with its index in
iteration order; `none` when the initial `http.NotFoundHandler()` survives. -/
def dispatch (ps : List Path) (r : List Char) : Option (Nat × Path) :=
  serveAux r ps 0 none 0

/-- `paths.ServeHTTP` (src/ingress.go): serve the selected contender's
backend, or `http.NotFound` when none was selected. -/
def ServeHTTP (ps : List Path) (r : List Char) : Response :=
  match dispatch ps r with
  | none => notFoundResponse
  | some (_, p) => p.backend

/-! ## Go maps as association lists -/

/-- Go map read `m[k]` (presence-checked): the value at the first matching
key, if any. -/
def lookupA {K V : Type} [BEq K] (m : List (K × V)) (k : K) : Option V :=
  (m.find? (fun kv => kv.1 == k)).map (·.2)

/-- Go map delete (also `sync.Map.Delete`): drop every binding of the key. -/
def eraseA {K V : Type} [BEq K] (m : List (K × V)) (k : K) : List (K × V) :=
  m.filter (fun kv => !(kv.1 == k))

/-- Go map write `m[k] = v` (also `sync.Map.Store`): afterwards the key is
bound to exactly `v` and every other key is unchanged. -/
def storeA {K V : Type} [BEq K] (m : List (K × V)) (k : K) (v : V) : List (K × V) :=
  (k, v) :: eraseA m k

/-- The map representation invariant: keys are pairwise distinct. -/
def keysNodup {K V : Type} (m : List (K × V)) : Prop :=
  (m.map Prod.fst).Nodup

/-! ## Analysis of the dispatch loop -/

/-- The index selected by the `weight > strongest` scan of
`paths.ServeHTTP` over a weight list, starting from running maximum
`str`: the first index whose weight strictly exceeds `str` and every
later weight. -/
def bestIdx (str : Int) : List Int → Option Nat
  | [] => none
  | w :: ws =>
    if str < w then
      match bestIdx w ws with
      | some j => some (j + 1)
      | none => some 0
    else (bestIdx str ws).map (· + 1)

/-! ## Controller data model (internal/controller, api/v1alpha1)

Kubernetes objects are embedded with exactly the fields the controller
reads; backend handlers are abstracted as `Nat` handles. -/

/-- `networkingv1.PathType`. -/
inductive PType where
  | exact
  | prefixType
  | implementationSpecific
deriving DecidableEq

/-- `networkingv1.HTTPIngressPath`: the fields `IngressController.ServeHTTP`
reads, with the backend abstracted to a handler id. -/
structure KPath where
  pathType : Option PType
  path : List Char
  handler : Nat
deriving DecidableEq

/-- `networkingv1.IngressRule`: a host and an optional HTTP path list. -/
structure KRule where
  host : List Char
  http : Option (List KPath)
deriving DecidableEq

/-- `networkingv1.Ingress`: the fields read by `IngressController.ServeHTTP`
and `IngressReconciler.Reconcile`. -/
structure KIngress where
  className : Option (List Char)
  annotations : List (List Char × List Char)
  rules : List KRule
  defaultBackend : Option Nat
deriving DecidableEq

/-- A candidate appended to the `paths` slice by
`IngressController.ServeHTTP`: `ingress.ExactPath` stores the path string,
`ingress.PrefixPath` stores its element sequence.  (`url.JoinPath("/", p)`
is the identity on the rooted, already-clean paths concerned and is not
modelled.) -/
inductive Cand where
  | exactC (path : List Char) (handler : Nat)
  | prefixC (els : List (List Char)) (handler : Nat)
deriving DecidableEq

/-- The `switch *ingPath.PathType` of `IngressController.ServeHTTP`:
`Exact` becomes an exact candidate, `Prefix` and `ImplementationSpecific`
become prefix candidates, an unset path type is skipped. -/
def candsOfPath (p : KPath) : List Cand :=
  match p.pathType with
  | none => []
  | some .exact => [.exactC p.path p.handler]
  | some .prefixType => [.prefixC (getElements p.path) p.handler]
  | some .implementationSpecific => [.prefixC (getElements p.path) p.handler]

/-- The rule loop of `IngressController.ServeHTTP` for one ingress: rules
whose host differs from the request host or whose `HTTP` is nil are
skipped; the remaining path entries contribute candidates in order. -/
def ruleCands (reqHost : List Char) (ing : KIngress) : List Cand :=
  (ing.rules.map (fun rule =>
    if rule.host == reqHost then
      match rule.http with
      | none => []
      | some ps => (ps.map candsOfPath).flatten
    else [])).flatten

/-- The `Prefix "/"` candidate synthesized for a default backend:
`ingress.PrefixPath("/", handler)`, whose element sequence is empty. -/
def defaultCand (handler : Nat) : Cand :=
  .prefixC (getElements (chars "/")) handler

/-- One iteration of the ingress loop of `IngressController.ServeHTTP`:
skip the ingress unless its class name is set and equals the configured
one; append its rule candidates to the shared `paths` slice; then, if the
shared slice is still empty and the ingress declares a default backend,
append the synthesized `Prefix "/"` candidate. -/
def collectStep (cfg reqHost : List Char) (acc : List Cand) (ing : KIngress) : List Cand :=
  match ing.className with
  | none => acc
  | some cn =>
    if cn == cfg then
      let acc1 := acc ++ ruleCands reqHost ing
      match ing.defaultBackend with
      | some d => if acc1.isEmpty then acc1 ++ [defaultCand d] else acc1
      | none => acc1
    else acc

/-- The candidate list `IngressController.ServeHTTP` hands to
`ingress.New(paths...)`: the ingress loop folded over the listed
ingresses, starting from the empty slice. -/
def collectPaths (cfg reqHost : List Char) (ings : List KIngress) : List Cand :=
  ings.foldl (collectStep cfg reqHost) []

/-- The class filter of the ingress loop: class name set and equal to the
configured class name. -/
def classOk (cfg : List Char) (ing : KIngress) : Bool :=
  match ing.className with
  | none => false
  | some cn => cn == cfg

/-- The rule candidates of a list of ingresses, with no default-backend
synthesis at all (the contribution of the loop once amending is accounted
for). -/
def rulesOnly (cfg reqHost : List Char) (ings : List KIngress) : List Cand :=
  (ings.map (fun ing =>
    if classOk cfg ing then ruleCands reqHost ing else [])).flatten

/-! ## TLS certificate resolver (`IngressController.GetCertificate`) -/

/-- `networkingv1.IngressTLS`: hosts and secret name. -/
structure IngressTLS where
  hosts : List (List Char)
  secretName : List Char
deriving DecidableEq

/-- An ingress as read by `GetCertificate`: namespace, rule hosts, TLS
entries. -/
structure TLSIngress where
  ns : List Char
  ruleHosts : List (List Char)
  tls : List IngressTLS
deriving DecidableEq

/-- `corev1.Secret`: its `Data` map. -/
structure KSecret where
  data : List (List Char × List Char)
deriving DecidableEq

/-- How `GetCertificate` can fail once an ingress and TLS entry matched. -/
inductive CertErr where
  | getSecretFailed
  | keyPairFailed
deriving DecidableEq

/-- The zero `networkingv1.IngressTLS` value that `xslices.Find` yields
when no TLS entry matches. -/
def zeroIngressTLS : IngressTLS := { hosts := [], secretName := [] }

/-- `xslices.Find(ing.Spec.TLS, hosts contains serverName)`: first match,
or the zero value. -/
def findTLS (tls : List IngressTLS) (sni : List Char) : IngressTLS :=
  match tls.find? (fun t => t.hosts.contains sni) with
  | some t => t
  | none => zeroIngressTLS

/-- Go map read `secret.Data[k]`, yielding nil (the empty byte slice) for a
missing key. -/
def dataGet (sec : KSecret) (k : List Char) : List Char :=
  (lookupA sec.data k).getD []

/-- `IngressController.GetCertificate` (src/unnamed/part_007), after a
successful `List`: scan the ingresses; on the first one with a rule host
equal to the SNI name and a found TLS entry with non-empty secret name,
load the secret (error on miss) and decode the key pair through the
`tls.X509KeyPair` oracle `x509` (error on `none`); otherwise continue, and
return no certificate at the end. -/
def GetCertificate {C : Type} (x509 : List Char → List Char → Option C)
    (secrets : List ((List Char × List Char) × KSecret)) (sni : List Char) :
    List TLSIngress → Except CertErr (Option C)
  | [] => .ok none
  | ing :: rest =>
    if ing.ruleHosts.contains sni then
      if (findTLS ing.tls sni).secretName.isEmpty then GetCertificate x509 secrets sni rest
      else
        match lookupA secrets (ing.ns, (findTLS ing.tls sni).secretName) with
        | none => .error .getSecretFailed
        | some sec =>
          match x509 (dataGet sec (chars "tls.crt")) (dataGet sec (chars "tls.key")) with
          | none => .error .keyPairFailed
          | some crt => .ok (some crt)
    else GetCertificate x509 secrets sni rest

/-! ## Status reconciler (`IngressReconciler.Reconcile`) -/

/-- How `r.Get` of the ingress can fail. -/
inductive GetErr where
  | notFound
  | transient
deriving DecidableEq

/-- `networkingv1.IngressClass`: name and annotations. -/
structure KClass where
  name : List Char
  annotations : List (List Char × List Char)
deriving DecidableEq

/-- An API write attempted by `Reconcile`: a spec update (copying a class
name into `spec.ingressClassName`) or a status subresource update. -/
inductive RAction where
  | specUpdate (className : List Char)
  | statusUpdate
deriving DecidableEq

/-- The observable outcome of one `Reconcile` call: the writes it
attempted, in order, and whether it returned an error. -/
structure RecOutcome where
  actions : List RAction
  err : Bool
deriving DecidableEq

/-- The collaborators of one `Reconcile` call: the fetched ingress, the
load-balancer address resolver, the configured ingress class object, and
whether the spec/status update calls succeed. -/
structure RecEnv where
  getIng : Except GetErr KIngress
  lb : Except Unit Nat
  getClass : Except Unit KClass
  updOk : Bool
  statusUpdOk : Bool

/-- The legacy class annotation key `kubernetes.io/ingress.class`. -/
def ingressClassAnnotation : List Char := chars "kubernetes.io/ingress.class"

/-- `networkingv1.AnnotationIsDefaultIngressClass`. -/
def isDefaultClassAnnotation : List Char :=
  chars "ingressclass.kubernetes.io/is-default-class"

/-- `strconv.ParseBool` truth values; parse errors are discarded by the
caller (`isDefaultIngressClass, _ = strconv.ParseBool(...)`), leaving
`false`. -/
def parseBoolTrue (s : List Char) : Bool :=
  [chars "1", chars "t", chars "T", chars "TRUE", chars "true", chars "True"].contains s

/-- The is-default-class decision of `Reconcile`: the annotation, parsed
leniently, defaulting to `false`. -/
def isDefaultClass (cls : KClass) : Bool :=
  match lookupA cls.annotations isDefaultClassAnnotation with
  | some v => parseBoolTrue v
  | none => false

/-- `IngressReconciler.Reconcile` (src/internal/controller/ingress_controller.go,
third revision, lines 675-747): fetch the ingress (not-found is a clean
no-op), resolve the load-balancer address, then walk the class-decision
table; positive decisions update spec or status, negative ones return
cleanly with no write. -/
def Reconcile (env : RecEnv) (cfg : List Char) : RecOutcome :=
  match env.getIng with
  | .error .notFound => ⟨[], false⟩
  | .error .transient => ⟨[], true⟩
  | .ok ing =>
    match env.lb with
    | .error _ => ⟨[], true⟩
    | .ok _ =>
      match ing.className with
      | some cn =>
        if cn == cfg then ⟨[.statusUpdate], !env.statusUpdOk⟩
        else ⟨[], false⟩
      | none =>
        match lookupA ing.annotations ingressClassAnnotation with
        | some acn =>
          if acn == cfg then ⟨[.specUpdate acn], !env.updOk⟩
          else ⟨[], false⟩
        | none =>
          match env.getClass with
          | .error _ => ⟨[], true⟩
          | .ok cls =>
            if isDefaultClass cls then ⟨[.specUpdate cls.name], !env.updOk⟩
            else ⟨[], false⟩

/-! ## BasicAuth middleware (`IngressController.handlerForPath`) -/

/-- `v1alpha1.BasicAuth`: object name (used in the realm) and its secret
key reference. -/
structure BAObj where
  name : String
  secretName : List Char
  secretKey : List Char

/-- The collaborators of the BasicAuth handler: the fetched `BasicAuth`
object and `Secret`, the `base64.StdEncoding.DecodeString` and
`bcrypt.CompareHashAndPassword` oracles, and the nested backend
resolution. -/
structure BAEnv where
  basicAuth : Option BAObj
  secret : Option KSecret
  b64 : List Char → Option (List Char)
  bcrypt : List Char → List Char → Bool
  nested : Except String Response

/-- `unicode.IsSpace` on the ASCII range relevant to credential files. -/
def isWhite (c : Char) : Bool :=
  c == ' ' || c == '\t' || c == '\n' || c == '\r' || c == '\x0b' || c == '\x0c'

/-- `strings.TrimSpace`. -/
def trimSpace (s : List Char) : List Char :=
  ((s.dropWhile isWhite).reverse.dropWhile isWhite).reverse

/-- `strings.Cut(s, sep)` for a one-character separator: split at the
first occurrence, `none` when absent. -/
def cut (sep : Char) : List Char → Option (List Char × List Char)
  | [] => none
  | c :: cs =>
    if c == sep then some ([], cs)
    else (cut sep cs).map (fun pr => (c :: pr.1, pr.2))

/-- `strings.HasPrefix`. -/
def hasLead : List Char → List Char → Bool
  | [], _ => true
  | _ :: _, [] => false
  | p :: ps, s :: ss => p == s && hasLead ps ss

/-- `strings.TrimPrefix`. -/
def trimLead (pre s : List Char) : List Char :=
  if hasLead pre s then s.drop pre.length else s

/-- The credential-file parse of the BasicAuth handler: split the secret
value on newlines, trim whitespace, skip blank lines and lines without a
colon, and store `user -> bcrypt hash` (later lines override earlier
ones). -/
def parseCreds (raw : List Char) : List (List Char × List Char) :=
  (splitSep '\n' raw).foldl (fun m line =>
    let l := trimSpace line
    if l.isEmpty then m
    else
      match cut ':' l with
      | none => m
      | some (user, pass) => storeA m user pass) []

/-- The `Basic ` authorization scheme marker. -/
def basicScheme : List Char := chars "Basic "

/-- The challenge header value `Basic realm="<name>"`. -/
def wwwAuthenticate (name : String) : String := "Basic realm=\"" ++ name ++ "\""

/-- The 401 rejection written by every failed check: body
`401 not authorized` (plus `http.Error`'s newline) under a
`WWW-Authenticate` challenge naming the BasicAuth object. -/
def resp401 (name : String) : Response :=
  { status := 401, body := "401 not authorized\n",
    headers := [("WWW-Authenticate", wwwAuthenticate name)] }

/-- The BasicAuth branch of `IngressController.handlerForPath`
(src/unnamed/part_008): fetch the object and secret (500s), parse the
credential file, then run the `Authorization` checks, each failure
answering 401 with the challenge header; only full success resolves and
invokes the nested backend. -/
def BasicAuthServeHTTP (env : BAEnv) (auth : List Char) : Response :=
  match env.basicAuth with
  | none => httpError "get basicauth" 500
  | some ba =>
    if ba.secretName.isEmpty || ba.secretKey.isEmpty then
      httpError "invalid basic auth secret reference" 500
    else
      match env.secret with
      | none => httpError "get secret" 500
      | some sec =>
        match lookupA sec.data ba.secretKey with
        | none => httpError "basic auth secret key not found" 500
        | some raw =>
          let creds := parseCreds raw
          if auth.isEmpty || !(hasLead basicScheme auth) then resp401 ba.name
          else
            match env.b64 (trimLead basicScheme auth) with
            | none => resp401 ba.name
            | some decoded =>
              match cut ':' decoded with
              | none => resp401 ba.name
              | some (user, pass) =>
                match lookupA creds user with
                | none => resp401 ba.name
                | some hash =>
                  if env.bcrypt hash pass then
                    match env.nested with
                    | .error e => httpError e 500
                    | .ok resp => resp
                  else resp401 ba.name

/-- The rejection condition as the specification states it: empty header,
missing `Basic ` scheme, base64 failure, missing colon, unknown user, or
bcrypt mismatch. -/
def specAuthRejects (b64 : List Char → Option (List Char))
    (bcrypt : List Char → List Char → Bool)
    (creds : List (List Char × List Char)) (auth : List Char) : Bool :=
  if auth.isEmpty || !(hasLead basicScheme auth) then true
  else
    match b64 (trimLead basicScheme auth) with
    | none => true
    | some decoded =>
      match cut ':' decoded with
      | none => true
      | some (user, pass) =>
        match lookupA creds user with
        | none => true
        | some hash => !(bcrypt hash pass)

/-! ## Port-forward cache (`IngressController.handlerForPortforward`) -/

/-- `corev1.ServicePort`: the fields the port-forward path reads. -/
structure KPort where
  name : List Char
  protocolTCP : Bool
  targetPort : List Char
deriving DecidableEq

/-- `corev1.Service`: its port list. -/
structure KSvc where
  ports : List KPort
deriving DecidableEq

/-- One pod of the listed pod set, abstracted to the outcomes of
`portforward.New`, `portforwarder.GetPorts`, and the forwarded
(local, remote) port pairs (ports as decimal strings). -/
structure PFPod where
  newOk : Bool
  portsOk : Bool
  forwarded : List (List Char × List Char)
deriving DecidableEq

/-- The collaborators of one `handlerForPortforward` call. -/
structure PFEnv where
  svc : Option KSvc
  pods : List PFPod

/-- The process-wide port-forward state: the `svcKeyToForwardAddr` cache
and the number of live forwarder goroutines. -/
structure PFState where
  cache : List (List Char × List Char)
  forwarders : Nat
deriving DecidableEq

/-- The zero `corev1.ServicePort` that `xslices.Find` yields when no port
name matches (its protocol is not TCP). -/
def zeroKPort : KPort := { name := [], protocolTCP := false, targetPort := [] }

/-- `xslices.Find(svc.Spec.Ports, name == port.Name)`. -/
def findPort (ports : List KPort) (n : List Char) : KPort :=
  (ports.find? (fun p => p.name == n)).getD zeroKPort

/-- The scan over `portforwarder.GetPorts()` for the entry whose remote
port equals the target port. -/
def findForwarded (fp : List (List Char × List Char)) (target : List Char) :
    Option (List Char) :=
  (fp.find? (fun p => p.2 == target)).map (·.1)

/-- The pod loop of `handlerForPortforward`: `portforward.New` failure
aborts; otherwise the `ForwardPorts` goroutine starts (one more live
forwarder); a `GetPorts` failure aborts; a forwarded port matching the
target stores `127.0.0.1:<local>` in the cache and returns it; otherwise
the next pod is tried, and running out of pods is the
`unable to portforward to any Pods` error. -/
def podLoop (key target : List Char) :
    List PFPod → PFState → Except String (List Char) × PFState
  | [], st => (.error "unable to portforward to any Pods", st)
  | pod :: rest, st =>
    if !pod.newOk then (.error "portforward.New", st)
    else
      let st1 : PFState := ⟨st.cache, st.forwarders + 1⟩
      if !pod.portsOk then (.error "GetPorts", st1)
      else
        match findForwarded pod.forwarded target with
        | some localPort =>
          let addr := chars "127.0.0.1:" ++ localPort
          (.ok addr, ⟨storeA st1.cache key addr, st1.forwarders⟩)
        | none => podLoop key target rest st1

/-- `IngressController.handlerForPortforward` (src/unnamed/part_008): a
cache hit returns a proxy to the cached local address with the state
untouched; a miss fetches the service, requires a TCP port, and runs the
pod loop.  The `.ok` payload is the local address the returned reverse
proxy targets. -/
def HandlerForPortforward (env : PFEnv) (portName key : List Char) (st : PFState) :
    Except String (List Char) × PFState :=
  match lookupA st.cache key with
  | some addr => (.ok addr, st)
  | none =>
    match env.svc with
    | none => (.error "get service", st)
    | some svc =>
      let svcPort := findPort svc.ports portName
      if !svcPort.protocolTCP then (.error "unsupported service port protocol", st)
      else podLoop key svcPort.targetPort env.pods st

/-- The tail of the `ForwardPorts` goroutine: when a forwarder exits, its
cache entry is deleted (and one fewer forwarder is live). -/
def forwarderExit (st : PFState) (key : List Char) : PFState :=
  ⟨eraseA st.cache key, st.forwarders - 1⟩

/-! ## Concrete instances used by counterexamples and witnesses -/

/-- The response of the `/prefix` backend of `TestIngress`
(src/ingress_test.go). -/
def prefixBodyResp : Response := { status := 200, body := "prefixBody", headers := [] }

/-- The response of the `/exact` backend of `TestIngress`. -/
def exactBodyResp : Response := { status := 200, body := "exactBody", headers := [] }

/-- The rule set of `TestIngress`:
`ingress.New(ingress.PrefixPath("/prefix", ...), ingress.ExactPath("/exact", ...))`. -/
def testPaths : List Path :=
  [ { Matches := PrefixMatches (getElements (chars "/prefix")), backend := prefixBodyResp },
    { Matches := ExactMatches (chars "/exact"), backend := exactBodyResp } ]

/-- A candidate whose `Matches` is the constant `-1` (the interface
comment of src/unnamed/part_002 reads: `<0 is infinity`). -/
def negCand : Path :=
  { Matches := fun _ => -1, backend := { status := 200, body := "neg", headers := [] } }

/-- A candidate whose `Matches` is the constant `5`. -/
def posCand : Path :=
  { Matches := fun _ => 5, backend := { status := 200, body := "pos", headers := [] } }

/-- A request path of 3999 one-character elements, `/a/a/.../a`. -/
def bigRequest : List Char := (List.replicate 3999 ['/', 'a']).flatten

/-- The element sequence of `bigRequest`. -/
def bigElements : List (List Char) := List.replicate 3999 ['a']

/-- A configured ingress class name. -/
def icName : List Char := chars "go-ingress"

/-- A request host. -/
def reqHostEx : List Char := chars "h"

/-- An ingress of the configured class contributing one rule candidate for
the request host. -/
def ing1 : KIngress :=
  { className := some icName, annotations := [],
    rules := [ { host := reqHostEx,
                 http := some [ { pathType := some .prefixType, path := chars "/a", handler := 1 } ] } ],
    defaultBackend := none }

/-- An ingress of the configured class with no rules and a default
backend. -/
def ing2 : KIngress :=
  { className := some icName, annotations := [], rules := [], defaultBackend := some 2 }

theorem lookupA_storeA_self {K V : Type} [BEq K] [LawfulBEq K]
    (m : List (K × V)) (k : K) (v : V) : lookupA (storeA m k v) k = some v := by
  simp [storeA, lookupA, List.find?]

theorem lookupA_eraseA_self {K V : Type} [BEq K] (m : List (K × V)) (k : K) :
    lookupA (eraseA m k) k = none := by
  have : (eraseA m k).find? (fun kv => kv.1 == k) = none := by
    rw [List.find?_eq_none]
    intro kv hkv
    have := (List.mem_filter.mp hkv).2
    simpa using this
  simp [lookupA, this]

theorem keys_eraseA_sublist {K V : Type} [BEq K] (m : List (K × V)) (k : K) :
    ((eraseA m k).map Prod.fst).Sublist (m.map Prod.fst) :=
  (List.filter_sublist m).map Prod.fst

theorem keysNodup_eraseA {K V : Type} [BEq K] (m : List (K × V)) (k : K)
    (h : keysNodup m) : keysNodup (eraseA m k) :=
  h.sublist (keys_eraseA_sublist m k)

theorem keysNodup_storeA {K V : Type} [BEq K] [LawfulBEq K]
    (m : List (K × V)) (k : K) (v : V) (h : keysNodup m) :
    keysNodup (storeA m k v) := by
  simp only [storeA, keysNodup, List.map_cons, List.nodup_cons]
  refine ⟨fun hmem => ?_, keysNodup_eraseA m k h⟩
  rcases List.mem_map.mp hmem with ⟨p, hp, hpk⟩
  have hne := (List.mem_filter.mp hp).2
  rw [hpk] at hne
  simp at hne

/-! ## Analysis of the dispatch loop -/

theorem bestIdx_none {str : Int} {ws : List Int} (h : bestIdx str ws = none) :
    ∀ (k : Nat) wk, ws[k]? = some wk → wk ≤ str := by
  induction ws generalizing str with
  | nil => intro k wk hk; simp at hk
  | cons w ws ih =>
    by_cases hw : str < w
    · exfalso
      rcases hsub : bestIdx w ws with _ | j <;> simp [bestIdx, hw, hsub] at h
    · simp only [bestIdx, hw, if_false, Option.map_eq_none'] at h
      intro k wk hk
      match k with
      | 0 =>
        simp only [List.getElem?_cons_zero, Option.some.injEq] at hk
        omega
      | k + 1 =>
        simp only [List.getElem?_cons_succ] at hk
        exact ih h k wk hk

theorem bestIdx_some {str : Int} {ws : List Int} {j : Nat}
    (h : bestIdx str ws = some j) :
    ∃ wj, ws[j]? = some wj ∧ str < wj
      ∧ (∀ (k : Nat) wk, ws[k]? = some wk → wk ≤ wj)
      ∧ (∀ (k : Nat) wk, k < j → ws[k]? = some wk → wk < wj) := by
  induction ws generalizing str j with
  | nil => simp [bestIdx] at h
  | cons w ws ih =>
    by_cases hw : str < w
    · rcases hsub : bestIdx w ws with _ | j'
      · simp only [bestIdx, hw, if_true, hsub, Option.some.injEq] at h
        subst h
        refine ⟨w, by simp, hw, ?_, ?_⟩
        · intro k wk hk
          match k with
          | 0 => simp only [List.getElem?_cons_zero, Option.some.injEq] at hk; omega
          | k + 1 =>
            simp only [List.getElem?_cons_succ] at hk
            exact bestIdx_none hsub k wk hk
        · intro k wk hk; omega
      · simp only [bestIdx, hw, if_true, hsub, Option.some.injEq] at h
        subst h
        rcases ih hsub with ⟨wj, hget, hlt, hmax, hfirst⟩
        refine ⟨wj, by simpa using hget, lt_trans hw hlt, ?_, ?_⟩
        · intro k wk hk
          match k with
          | 0 =>
            simp only [List.getElem?_cons_zero, Option.some.injEq] at hk
            omega
          | k + 1 =>
            simp only [List.getElem?_cons_succ] at hk
            exact hmax k wk hk
        · intro k wk hkj hk
          match k with
          | 0 =>
            simp only [List.getElem?_cons_zero, Option.some.injEq] at hk
            omega
          | k + 1 =>
            simp only [List.getElem?_cons_succ] at hk
            exact hfirst k wk (by omega) hk
    · simp only [bestIdx, hw, if_false, Option.map_eq_some'] at h
      rcases h with ⟨j', hsub, rfl⟩
      rcases ih hsub with ⟨wj, hget, hlt, hmax, hfirst⟩
      refine ⟨wj, by simpa using hget, hlt, ?_, ?_⟩
      · intro k wk hk
        match k with
        | 0 =>
          simp only [List.getElem?_cons_zero, Option.some.injEq] at hk
          omega
        | k + 1 =>
          simp only [List.getElem?_cons_succ] at hk
          exact hmax k wk hk
      · intro k wk hkj hk
        match k with
        | 0 =>
          simp only [List.getElem?_cons_zero, Option.some.injEq] at hk
          omega
        | k + 1 =>
          simp only [List.getElem?_cons_succ] at hk
          exact hfirst k wk (by omega) hk

theorem serveAux_of_bestIdx_none {r : List Char} {ps : List Path} {str : Int}
    (hw : ∀ p ∈ ps, 0 ≤ p.Matches r)
    (h : bestIdx str (ps.map (·.Matches r)) = none)
    (i : Nat) (cont : Option (Nat × Path)) :
    serveAux r ps i cont str = cont := by
  induction ps generalizing str i cont with
  | nil => simp [serveAux]
  | cons p ps ih =>
    have h0 : 0 ≤ p.Matches r := hw p (List.mem_cons_self _ _)
    by_cases hgt : str < p.Matches r
    · exfalso
      rcases hsub : bestIdx (p.Matches r) (ps.map (·.Matches r)) with _ | j <;>
        simp [bestIdx, hgt, hsub] at h
    · simp only [List.map_cons, bestIdx, hgt, if_false, Option.map_eq_none'] at h
      simp only [serveAux]
      rw [if_neg (by omega), if_neg (by omega)]
      exact ih (fun q hq => hw q (List.mem_cons_of_mem _ hq)) h (i + 1) cont

theorem serveAux_of_bestIdx_some {r : List Char} {ps : List Path} {str : Int} {j : Nat} {p : Path}
    (hw : ∀ q ∈ ps, 0 ≤ q.Matches r)
    (h : bestIdx str (ps.map (·.Matches r)) = some j)
    (hp : ps[j]? = some p)
    (i : Nat) (cont : Option (Nat × Path)) :
    serveAux r ps i cont str = some (i + j, p) := by
  induction ps generalizing str i cont j with
  | nil => simp [bestIdx] at h
  | cons q ps ih =>
    have h0 : 0 ≤ q.Matches r := hw q (List.mem_cons_self _ _)
    have hwtail : ∀ q' ∈ ps, 0 ≤ q'.Matches r :=
      fun q' hq => hw q' (List.mem_cons_of_mem _ hq)
    by_cases hgt : str < q.Matches r
    · rcases hsub : bestIdx (q.Matches r) (ps.map (·.Matches r)) with _ | j'
      · simp only [List.map_cons, bestIdx, hgt, if_true, hsub, Option.some.injEq] at h
        subst h
        simp only [List.getElem?_cons_zero, Option.some.injEq] at hp
        subst hp
        simp only [serveAux]
        rw [if_neg (by omega), if_pos (by omega)]
        rw [serveAux_of_bestIdx_none hwtail hsub]
        simp
      · simp only [List.map_cons, bestIdx, hgt, if_true, hsub, Option.some.injEq] at h
        subst h
        simp only [List.getElem?_cons_succ] at hp
        simp only [serveAux]
        rw [if_neg (by omega), if_pos (by omega)]
        rw [ih hwtail hsub hp]
        congr 2
        omega
    · simp only [List.map_cons, bestIdx, hgt, if_false, Option.map_eq_some'] at h
      rcases h with ⟨j', hsub, rfl⟩
      simp only [List.getElem?_cons_succ] at hp
      simp only [serveAux]
      rw [if_neg (by omega), if_neg (by omega)]
      rw [ih hwtail hsub hp]
      congr 2
      omega

theorem serveAux_first_neg {r : List Char} {ps : List Path} {i : Nat} {p : Path}
    (hp : ps[i]? = some p) (hneg : p.Matches r < 0)
    (hpre : ∀ (j : Nat) q, j < i → ps[j]? = some q → 0 ≤ q.Matches r) :
    ∀ (i0 : Nat) (cont : Option (Nat × Path)) (str : Int),
      serveAux r ps i0 cont str = some (i0 + i, p) := by
  induction ps generalizing i with
  | nil => simp at hp
  | cons q ps ih =>
    intro i0 cont str
    match i with
    | 0 =>
      simp only [List.getElem?_cons_zero, Option.some.injEq] at hp
      subst hp
      simp only [serveAux]
      rw [if_pos hneg]
      simp
    | i + 1 =>
      simp only [List.getElem?_cons_succ] at hp
      have hq : 0 ≤ q.Matches r :=
        hpre 0 q (by omega) (by simp)
      have hpre' : ∀ (j : Nat) q', j < i → ps[j]? = some q' → 0 ≤ q'.Matches r :=
        fun j q' hj hg => hpre (j + 1) q' (by omega) (by simpa using hg)
      simp only [serveAux]
      rw [if_neg (by omega)]
      by_cases hgt : q.Matches r > str
      · rw [if_pos hgt, ih hp hpre' (i0 + 1) _ _]
        congr 2
        omega
      · rw [if_neg hgt, ih hp hpre' (i0 + 1) _ _]
        congr 2
        omega

/-! ## Path-normalization lemmas -/

theorem splitSep_join_replicate (n : Nat) :
    splitSep '/' ((List.replicate n ['/', 'a']).flatten) =
      [] :: List.replicate n ['a'] := by
  induction n with
  | zero => simp [splitSep]
  | succ n ih =>
    have hstep : (List.replicate (n + 1) ['/', 'a']).flatten =
        '/' :: 'a' :: (List.replicate n ['/', 'a']).flatten := by
      simp [List.replicate_succ]
    have h1 : ('a' == '/') = false := by decide
    have h2 : ('/' == '/') = true := by decide
    rw [hstep]
    simp [splitSep, ih, h1, h2, List.replicate_succ]


theorem filter_keep_replicate (n : Nat) :
    (List.replicate n (['a'] : List Char)).filter (fun e => !e.isEmpty) =
      List.replicate n ['a'] := by
  induction n with
  | zero => rfl
  | succ n ih =>
    rw [List.replicate_succ, List.filter_cons, if_pos (by decide), ih]

theorem getElements_bigRequest : getElements bigRequest = bigElements := by
  rw [getElements, bigRequest, splitSep_join_replicate, List.filter_cons,
    if_neg (by decide), bigElements]
  exact filter_keep_replicate 3999

theorem matchLoop_self (l : List (List Char)) : matchLoop l l = true := by
  induction l with
  | nil => rfl
  | cons x xs ih => simp [matchLoop, ih]

theorem matchLoop_iff (els : List (List Char)) :
    ∀ es : List (List Char), els.length ≤ es.length →
      (matchLoop els es = true ↔ ∀ (i : Nat), i < els.length → es[i]? = els[i]?) := by
  induction els with
  | nil =>
    intro es _
    simp [matchLoop]
  | cons p ps ih =>
    intro es hlen
    match es with
    | [] => simp at hlen
    | e :: es =>
      simp only [List.length_cons, Nat.succ_le_succ_iff] at hlen
      simp only [matchLoop, Bool.and_eq_true, beq_iff_eq]
      rw [ih es hlen]
      constructor
      · rintro ⟨rfl, h⟩ i hi
        match i with
        | 0 => simp
        | i + 1 =>
          simp only [List.getElem?_cons_succ]
          exact h i (by simpa using hi)
      · intro h
        constructor
        · have := h 0 (by simp)
          simpa using this.symm
        · intro i hi
          have := h (i + 1) (by simpa using hi)
          simpa using this

theorem PrefixMatches_cases (els : List (List Char)) (r : List Char) :
    PrefixMatches els r = 0 ∨ PrefixMatches els r = (els.length : Int) + 1 := by
  unfold PrefixMatches
  by_cases h1 : (getElements r).length < els.length
  · simp [h1]
  · by_cases h2 : matchLoop els (getElements r) <;> simp [h1, h2]

/-- C1 (counterexample): the Exact weight is the finite constant 4000, not
an infinity: on the 3999-element request `/a/.../a`, a matching Prefix
candidate of 3999 elements also weighs 4000, so the Exact weight is not
strictly greater; and when the Exact candidate does not match at all, its
weight 0 does not beat even a one-element matching Prefix. -/
theorem c1_counterexample :
    PrefixMatches bigElements bigRequest ≠ 0 ∧
    ¬(ExactMatches bigRequest bigRequest > PrefixMatches bigElements bigRequest) ∧
    PrefixMatches (getElements (chars "/y")) (chars "/y/z") ≠ 0 ∧
    ¬(ExactMatches (chars "/x") (chars "/y/z") >
        PrefixMatches (getElements (chars "/y")) (chars "/y/z")) := by
  have hge : getElements bigRequest = bigElements := getElements_bigRequest
  have hlen : bigElements.length = 3999 := by
    rw [bigElements, List.length_replicate]
  have hpm : PrefixMatches bigElements bigRequest = 4000 := by
    simp only [PrefixMatches]
    rw [hge, hlen, if_neg (lt_irrefl 3999), matchLoop_self bigElements, if_pos rfl]
    norm_num
  have hex : ExactMatches bigRequest bigRequest = 4000 := by
    rw [ExactMatches, if_pos rfl]
    rfl
  refine ⟨by rw [hpm]; norm_num, by rw [hpm, hex]; omega, by decide, by decide⟩

/-- C1 (amended): whenever the Exact candidate matches the request path
(`strings.Trim`-equality) and the Prefix candidate's element sequence has
fewer than 3999 elements, the Exact weight (4000) is strictly greater than
the Prefix candidate's weight on that request. -/
theorem c1_exact_outranks_bounded_prefixes (p r : List Char) (els : List (List Char))
    (hmatch : trimSlash p = trimSlash r) (hlen : els.length < 3999) :
    PrefixMatches els r < ExactMatches p r := by
  have hex : ExactMatches p r = 4000 := by
    simp [ExactMatches, hmatch, reasonableMaxPathMatches]
  rcases PrefixMatches_cases els r with h | h <;> rw [h, hex] <;> omega

/-- C1 witness: the amended theorem applied at the `/exact` rule and
request with the `/pre` Prefix candidate. -/
theorem c1_witness :
    PrefixMatches (getElements (chars "/pre")) (chars "/exact") <
      ExactMatches (chars "/exact") (chars "/exact") :=
  c1_exact_outranks_bounded_prefixes (chars "/exact") (chars "/exact")
    (getElements (chars "/pre")) rfl (by decide)

/-- C2 (code bug): with the `TestIngress` rule set (`Prefix /prefix`,
`Exact /exact`), the request `/exact/` is served by the Exact backend
(200, `exactBody`) because `exactPath.Matches` compares the paths after
`strings.Trim(_, "/")`; the repository's own test table
(src/ingress_test.go) and the specification both expect 404 with body
`404 page not found` plus newline for this request.  The `/exact` row, in
agreement on all sides, is also evaluated. -/
theorem c2_trailing_slash_divergence :
    ServeHTTP testPaths (chars "/exact/") = exactBodyResp ∧
    ServeHTTP testPaths (chars "/exact") = exactBodyResp ∧
    exactBodyResp ≠ notFoundResponse ∧
    notFoundResponse.body = "404 page not found\n" := by
  refine ⟨by decide, by decide, by decide, rfl⟩

/-- C3: Prefix matching is element-wise over the canonical segment
sequences: the weight is nonzero iff the request's element sequence is at
least as long as the candidate's and agrees with it index by index
(byte-exact lists of characters), the nonzero weight is `|P| + 1`, and in
particular `/pre` matches neither `/prefix` nor `/prefix/x`, and `/Prefix`
does not match the rule `/prefix`. -/
theorem c3_element_wise_matching :
    (∀ (els : List (List Char)) (r : List Char),
      (PrefixMatches els r ≠ 0 ↔
        els.length ≤ (getElements r).length ∧
          ∀ (i : Nat), i < els.length → (getElements r)[i]? = els[i]?) ∧
      (PrefixMatches els r ≠ 0 → PrefixMatches els r = (els.length : Int) + 1)) ∧
    PrefixMatches (getElements (chars "/pre")) (chars "/prefix") = 0 ∧
    PrefixMatches (getElements (chars "/pre")) (chars "/prefix/x") = 0 ∧
    PrefixMatches (getElements (chars "/prefix")) (chars "/Prefix") = 0 := by
  refine ⟨fun els r => ?_, by decide, by decide, by decide⟩
  simp only [PrefixMatches]
  by_cases h1 : (getElements r).length < els.length
  · rw [if_pos h1]
    constructor
    · constructor
      · intro h; exact absurd rfl h
      · intro ⟨hle, _⟩; omega
    · intro h; exact absurd rfl h
  · rw [if_neg h1]
    have hle : els.length ≤ (getElements r).length := by omega
    by_cases h2 : matchLoop els (getElements r) = true
    · rw [if_pos h2]
      have hpos : ((els.length : Int) + 1) ≠ 0 := by positivity
      constructor
      · constructor
        · intro _
          exact ⟨hle, (matchLoop_iff els (getElements r) hle).mp h2⟩
        · intro _; exact hpos
      · intro _; rfl
    · rw [if_neg h2]
      constructor
      · constructor
        · intro h; exact absurd rfl h
        · intro ⟨_, hall⟩
          exact absurd ((matchLoop_iff els (getElements r) hle).mpr hall) h2
      · intro h; exact absurd rfl h

/-- C3 witness: the characterization applied at the `/prefix` rule and the
request `/prefix/` (also exhibiting trailing-slash invariance). -/
theorem c3_witness :
    PrefixMatches (getElements (chars "/prefix")) (chars "/prefix/") = 2 := by
  have h :=
    (c3_element_wise_matching.1 (getElements (chars "/prefix")) (chars "/prefix/")).2
      (by decide)
  simpa using h

/-- C4 (counterexample): quantified over arbitrary candidate lists the
claim fails on negative weights: a lone candidate whose `Matches` is `-1`
has no positive weight, yet it (not the 404 handler) is served; and with a
later candidate of weight `5` the served candidate's weight is not
maximal. -/
theorem c4_counterexample :
    ServeHTTP [negCand] [] = negCand.backend ∧
    negCand.backend ≠ notFoundResponse ∧
    negCand.Matches [] ≤ 0 ∧
    dispatch [negCand, posCand] [] = some (0, negCand) ∧
    negCand.Matches [] < posCand.Matches [] := by
  exact ⟨rfl, by decide, by decide, rfl, by decide⟩

/-- C4 (amended): for every request path and every candidate list whose
weights on that path are all nonnegative, the matcher serves a candidate
of maximal weight, ties broken in favor of the first such candidate in
iteration order, and when no candidate has positive weight it serves the
404 response whose body is byte-exactly `404 page not found` plus a
newline. -/
theorem c4_matcher_maximal (ps : List Path) (r : List Char)
    (hw : ∀ p ∈ ps, 0 ≤ p.Matches r) :
    (dispatch ps r = none →
      ServeHTTP ps r = notFoundResponse ∧
      notFoundResponse.status = 404 ∧ notFoundResponse.body = "404 page not found\n" ∧
      ∀ p ∈ ps, p.Matches r ≤ 0) ∧
    (∀ (i : Nat) (p : Path), dispatch ps r = some (i, p) →
      ps[i]? = some p ∧ ServeHTTP ps r = p.backend ∧ 0 < p.Matches r ∧
      (∀ (j : Nat) q, ps[j]? = some q → q.Matches r ≤ p.Matches r) ∧
      (∀ (j : Nat) q, j < i → ps[j]? = some q → q.Matches r < p.Matches r)) := by
  rcases hb : bestIdx 0 (ps.map (·.Matches r)) with _ | j
  · have hd : dispatch ps r = none := serveAux_of_bestIdx_none hw hb 0 none
    constructor
    · intro _
      refine ⟨by simp [ServeHTTP, hd], rfl, rfl, fun p hp => ?_⟩
      obtain ⟨k, hk⟩ := List.mem_iff_getElem?.mp hp
      exact bestIdx_none hb k (p.Matches r) (by simp [List.getElem?_map, hk])
    · intro i p hip
      rw [hd] at hip
      cases hip
  · obtain ⟨wj, hwj, hpos, hmax, hfirst⟩ := bestIdx_some hb
    rw [List.getElem?_map] at hwj
    obtain ⟨pj, hpj, hpjw⟩ := Option.map_eq_some'.mp hwj
    have hd : dispatch ps r = some (j, pj) := by
      have := serveAux_of_bestIdx_some hw hb hpj 0 none
      simpa [dispatch] using this
    constructor
    · intro h; rw [hd] at h; cases h
    · intro i p hip
      rw [hd] at hip
      obtain ⟨rfl, rfl⟩ : j = i ∧ pj = p := by
        have := Option.some.inj hip
        exact ⟨congrArg Prod.fst this, congrArg Prod.snd this⟩
      refine ⟨hpj, by simp [ServeHTTP, hd], by rw [hpjw]; exact hpos, ?_, ?_⟩
      · intro k q hk
        have := hmax k (q.Matches r) (by simp [List.getElem?_map, hk])
        omega
      · intro k q hki hk
        have := hfirst k (q.Matches r) hki (by simp [List.getElem?_map, hk])
        omega

/-- C4 witness: the amended theorem applied to the singleton list holding
the weight-5 candidate. -/
theorem c4_witness :
    ServeHTTP [posCand] [] = posCand.backend ∧ 0 < posCand.Matches [] := by
  have h :=
    (c4_matcher_maximal [posCand] []
      (by intro p hp; simp at hp; subst hp; decide)).2 0 posCand rfl
  exact ⟨h.2.1, h.2.2.1⟩

/-- C10: in the dispatch loop of `paths.ServeHTTP`, the first candidate in
iteration order whose `Matches` is negative on the request path is served
immediately, whatever the candidates after it return: a negative weight is
treated as infinite and overrides every positive weight, even a larger one
later in the list. -/
theorem c10_negative_weight_served_first (ps : List Path) (r : List Char)
    (i : Nat) (p : Path)
    (hp : ps[i]? = some p) (hneg : p.Matches r < 0)
    (hpre : ∀ (j : Nat) q, j < i → ps[j]? = some q → 0 ≤ q.Matches r) :
    dispatch ps r = some (i, p) ∧ ServeHTTP ps r = p.backend := by
  have h := serveAux_first_neg hp hneg hpre 0 none 0
  have hd : dispatch ps r = some (i, p) := by simpa [dispatch] using h
  exact ⟨hd, by simp [ServeHTTP, hd]⟩

/-- C10 witness: a weight-5 candidate precedes a weight-(-1) candidate, and
the negative one is served. -/
theorem c10_witness :
    dispatch [posCand, negCand] [] = some (1, negCand) ∧
      ServeHTTP [posCand, negCand] [] = negCand.backend := by
  refine c10_negative_weight_served_first [posCand, negCand] [] 1 negCand rfl
    (by decide) ?_
  intro j q hj hq
  have hj0 : j = 0 := by omega
  subst hj0
  simp only [List.getElem?_cons_zero, Option.some.injEq] at hq
  subst hq
  decide

theorem collectStep_of_ne (cfg host : List Char) (acc : List Cand) (ing : KIngress)
    (h : acc ≠ []) :
    collectStep cfg host acc ing =
      acc ++ (if classOk cfg ing then ruleCands host ing else []) := by
  rcases hcn : ing.className with _ | cn
  · simp [collectStep, classOk, hcn]
  · rcases hdb : ing.defaultBackend with _ | d
    · by_cases hc : (cn == cfg) = true
      · simp [collectStep, classOk, hcn, hdb, hc]
      · simp [collectStep, classOk, hcn, hdb, hc]
    · by_cases hc : (cn == cfg) = true
      · have hne : (acc ++ ruleCands host ing).isEmpty = false := by
          rcases acc with _ | ⟨a, acc⟩
          · exact absurd rfl h
          · rfl
        simp [collectStep, classOk, hcn, hdb, hc, hne]
      · simp [collectStep, classOk, hcn, hdb, hc]

theorem foldl_collectStep_of_ne (cfg host : List Char) (rest : List KIngress) :
    ∀ (acc : List Cand), acc ≠ [] →
      List.foldl (collectStep cfg host) acc rest = acc ++ rulesOnly cfg host rest := by
  induction rest with
  | nil => intro acc _; simp [rulesOnly]
  | cons ing rest ih =>
    intro acc h
    have hne : acc ++ (if classOk cfg ing then ruleCands host ing else []) ≠ [] := by
      intro hx
      rcases List.append_eq_nil.mp hx with ⟨h1, _⟩
      exact h h1
    rw [List.foldl_cons, collectStep_of_ne cfg host acc ing h, ih _ hne]
    simp [rulesOnly, List.append_assoc]

/-- C5 (counterexample): the `len(paths) == 0` guard of
`IngressController.ServeHTTP` inspects the shared candidate slice, not a
per-ingress one: with `ing1` contributing a rule candidate and `ing2`
(same class, default backend set) after it, the aggregated list holds only
`ing1`'s candidate and no synthesized `Prefix "/"` candidate for `ing2`'s
default backend. -/
theorem c5_counterexample :
    collectPaths icName reqHostEx [ing1, ing2] = [Cand.prefixC [chars "a"] 1] ∧
    classOk icName ing2 = true ∧
    ing2.defaultBackend = some 2 ∧
    defaultCand 2 ∉ collectPaths icName reqHostEx [ing1, ing2] := by
  refine ⟨by decide, by decide, by decide, by decide⟩

/-- C5 (amended): the synthesized `Prefix "/"` default-backend candidate is
added for an ingress only while the aggregated candidate list is still
empty: once any candidate has been collected (whether by an earlier
ingress or later rules), the remaining ingresses contribute exactly their
rule candidates and never a default-backend candidate; and an ingress of
the configured class with no collected rule candidates and a declared
default backend does synthesize it when the list is empty. -/
theorem c5_default_only_while_empty :
    (∀ (cfg host : List Char) (pre rest : List KIngress),
      collectPaths cfg host pre ≠ [] →
      collectPaths cfg host (pre ++ rest) =
        collectPaths cfg host pre ++ rulesOnly cfg host rest) ∧
    (∀ (cfg host : List Char) (ing : KIngress) (d : Nat),
      classOk cfg ing = true → ruleCands host ing = [] →
      ing.defaultBackend = some d →
      collectPaths cfg host [ing] = [defaultCand d]) := by
  constructor
  · intro cfg host pre rest h
    rw [collectPaths, List.foldl_append]
    exact foldl_collectStep_of_ne cfg host rest _ h
  · intro cfg host ing d hclass hrules hdb
    rcases hcn : ing.className with _ | cn
    · rw [classOk, hcn] at hclass
      cases hclass
    · rw [classOk, hcn] at hclass
      simp only [beq_iff_eq] at hclass
      subst hclass
      simp [collectPaths, collectStep, hcn, hdb, hrules]

/-- C5 witness: the amended theorem applied to the two concrete ingresses:
`ing1`'s candidate suppresses `ing2`'s default, while `ing2` alone does
synthesize it. -/
theorem c5_witness :
    collectPaths icName reqHostEx ([ing1] ++ [ing2]) =
      collectPaths icName reqHostEx [ing1] ++ rulesOnly icName reqHostEx [ing2] ∧
    collectPaths icName reqHostEx [ing2] = [defaultCand 2] :=
  ⟨c5_default_only_while_empty.1 icName reqHostEx [ing1] [ing2] (by decide),
   c5_default_only_while_empty.2 icName reqHostEx ing2 2 (by decide) (by decide) (by decide)⟩

/-- C6: the TLS certificate resolver returns `null` without error whenever
every listed ingress either has no rule host equal to the SNI name or no
found TLS entry with a non-empty secret name; and when it returns an
error, some ingress has a rule host equal to the SNI name and a found TLS
entry with non-empty secret name whose secret fails to load or whose
`tls.crt`/`tls.key` fail to decode — and no certificate is returned with
the error. -/
theorem c6_null_vs_error {C : Type} (x509 : List Char → List Char → Option C)
    (secrets : List ((List Char × List Char) × KSecret)) (sni : List Char)
    (ings : List TLSIngress) :
    ((∀ ing ∈ ings, ing.ruleHosts.contains sni = false ∨
        (findTLS ing.tls sni).secretName = []) →
      GetCertificate x509 secrets sni ings = .ok none) ∧
    (∀ e, GetCertificate x509 secrets sni ings = .error e →
      ∃ ing ∈ ings, ing.ruleHosts.contains sni = true ∧
        (findTLS ing.tls sni).secretName ≠ [] ∧
        ((e = .getSecretFailed ∧
            lookupA secrets (ing.ns, (findTLS ing.tls sni).secretName) = none) ∨
         (e = .keyPairFailed ∧
            ∃ sec, lookupA secrets (ing.ns, (findTLS ing.tls sni).secretName) = some sec ∧
              x509 (dataGet sec (chars "tls.crt")) (dataGet sec (chars "tls.key")) = none))) := by
  induction ings with
  | nil =>
    constructor
    · intro _; rfl
    · intro e he; simp [GetCertificate] at he
  | cons ing rest ih =>
    constructor
    · intro h
      have hhead := h ing (List.mem_cons_self _ _)
      have htail : ∀ i ∈ rest, i.ruleHosts.contains sni = false ∨
          (findTLS i.tls sni).secretName = [] :=
        fun i hi => h i (List.mem_cons_of_mem _ hi)
      by_cases hc : ing.ruleHosts.contains sni = true
      · rcases hhead with h1 | h2
        · rw [hc] at h1; cases h1
        · have hempty : (findTLS ing.tls sni).secretName.isEmpty = true := by
            rw [h2]; rfl
          simp only [GetCertificate, hc, if_true, hempty]
          exact ih.1 htail
      · have hc' : ing.ruleHosts.contains sni = false := by
          simpa using hc
        simp only [GetCertificate, hc', Bool.false_eq_true, if_false]
        exact ih.1 htail
    · intro e he
      by_cases hc : ing.ruleHosts.contains sni = true
      · by_cases hempty : (findTLS ing.tls sni).secretName.isEmpty = true
        · simp only [GetCertificate, hc, if_true, hempty] at he
          obtain ⟨i, hi, hrest⟩ := ih.2 e he
          exact ⟨i, List.mem_cons_of_mem _ hi, hrest⟩
        · have hempty' : (findTLS ing.tls sni).secretName.isEmpty = false := by
            simpa using hempty
          have hne : (findTLS ing.tls sni).secretName ≠ [] := by
            intro h0
            rw [h0] at hempty
            exact hempty rfl
          simp only [GetCertificate, hc, if_true, hempty', Bool.false_eq_true,
            if_false] at he
          rcases hl : lookupA secrets (ing.ns, (findTLS ing.tls sni).secretName)
            with _ | sec
          · rw [hl] at he
            dsimp only at he
            have he' : CertErr.getSecretFailed = e := by
              cases he; rfl
            exact ⟨ing, List.mem_cons_self _ _, hc, hne, Or.inl ⟨he'.symm, hl⟩⟩
          · rw [hl] at he
            dsimp only at he
            rcases hx : x509 (dataGet sec (chars "tls.crt")) (dataGet sec (chars "tls.key"))
              with _ | crt
            · rw [hx] at he
              have he' : CertErr.keyPairFailed = e := by
                cases he; rfl
              exact ⟨ing, List.mem_cons_self _ _, hc, hne,
                Or.inr ⟨he'.symm, sec, hl, hx⟩⟩
            · rw [hx] at he
              cases he
      · have hc' : ing.ruleHosts.contains sni = false := by
          simpa using hc
        simp only [GetCertificate, hc', Bool.false_eq_true, if_false] at he
        obtain ⟨i, hi, hrest⟩ := ih.2 e he
        exact ⟨i, List.mem_cons_of_mem _ hi, hrest⟩

/-- C6 witness: an empty ingress list yields `null` over an empty secret
store, and so does an ingress matching the SNI name with no TLS entries
(the `NoTLSConfigured` fuzz scenario). -/
theorem c6_witness :
    GetCertificate (fun _ _ => (none : Option Nat)) [] (chars "example.com") [] =
      .ok none ∧
    GetCertificate (fun _ _ => (none : Option Nat)) [] (chars "example.com")
      [⟨chars "ns", [chars "example.com"], []⟩] = .ok none := by
  constructor
  · exact (c6_null_vs_error (fun _ _ => (none : Option Nat)) [] (chars "example.com")
      []).1 (by intro i hi; cases hi)
  · exact (c6_null_vs_error (fun _ _ => (none : Option Nat)) [] (chars "example.com")
      [⟨chars "ns", [chars "example.com"], []⟩]).1 (by intro i hi; simp at hi; subst hi; right; rfl)

/-- C7: when the fetched ingress's class decision is negative —
`spec.ingressClassName` set to a different value, or absent with a
non-matching legacy annotation, or absent with no annotation while the
configured class is not the default class — one `Reconcile` call attempts
no spec update and no status update and returns without error, whatever
the ingress's rules and default backend are. -/
theorem c7_negative_class_noop (env : RecEnv) (cfg : List Char) (ing : KIngress)
    (hing : env.getIng = .ok ing) (hlb : ∃ v, env.lb = .ok v)
    (hneg :
      (∃ cn, ing.className = some cn ∧ cn ≠ cfg) ∨
      (ing.className = none ∧
        ∃ a, lookupA ing.annotations ingressClassAnnotation = some a ∧ a ≠ cfg) ∨
      (ing.className = none ∧ lookupA ing.annotations ingressClassAnnotation = none ∧
        ∃ cls, env.getClass = .ok cls ∧ isDefaultClass cls = false)) :
    Reconcile env cfg = ⟨[], false⟩ := by
  obtain ⟨v, hv⟩ := hlb
  rcases hneg with ⟨cn, hcn, hne⟩ | ⟨hcn, a, ha, hane⟩ | ⟨hcn, hann, cls, hcls, hdef⟩
  · simp [Reconcile, hing, hv, hcn, beq_iff_eq, hne]
  · simp [Reconcile, hing, hv, hcn, ha, beq_iff_eq, hane]
  · simp [Reconcile, hing, hv, hcn, hann, hcls, hdef]

/-- C7 witness: a no-op on an ingress whose `spec.ingressClassName` is
`other` while the configured class is `go-ingress`, with a rule present. -/
theorem c7_witness :
    Reconcile
      ⟨.ok ⟨some (chars "other"), [],
          [⟨chars "h", some [⟨some .prefixType, chars "/a", 1⟩]⟩], some 7⟩,
        .ok 0, .error (), true, true⟩ icName = ⟨[], false⟩ :=
  c7_negative_class_noop _ icName
    ⟨some (chars "other"), [],
      [⟨chars "h", some [⟨some .prefixType, chars "/a", 1⟩]⟩], some 7⟩
    rfl ⟨0, rfl⟩ (Or.inl ⟨chars "other", rfl, by decide⟩)

/-- C8: once the BasicAuth object and its secret value are in hand, every
failing check of the claim's list — empty `Authorization` header, missing
`Basic ` scheme, base64 failure, missing colon in the decoded pair, a user
absent from the credential list, or a bcrypt mismatch against the stored
hash — produces the 401 response with body `401 not authorized` (plus
`http.Error`'s newline) carrying `WWW-Authenticate: Basic realm="<name>"`;
and only when no check fails is the nested backend resolved and its
response (or a 500 on resolution failure) returned. -/
theorem c8_basicauth_rejects (env : BAEnv) (auth : List Char)
    (ba : BAObj) (sec : KSecret) (raw : List Char)
    (hba : env.basicAuth = some ba)
    (hsn : ba.secretName ≠ []) (hsk : ba.secretKey ≠ [])
    (hsec : env.secret = some sec)
    (hraw : lookupA sec.data ba.secretKey = some raw) :
    (specAuthRejects env.b64 env.bcrypt (parseCreds raw) auth = true →
      BasicAuthServeHTTP env auth = resp401 ba.name ∧
      (resp401 ba.name).status = 401 ∧
      (resp401 ba.name).body = "401 not authorized\n" ∧
      lookupA (resp401 ba.name).headers "WWW-Authenticate" =
        some ("Basic realm=\"" ++ ba.name ++ "\"")) ∧
    (specAuthRejects env.b64 env.bcrypt (parseCreds raw) auth = false →
      BasicAuthServeHTTP env auth =
        match env.nested with
        | .error e => httpError e 500
        | .ok resp => resp) := by
  have hsn' : ba.secretName.isEmpty = false := by
    rcases h : ba.secretName with _ | ⟨c, cs⟩
    · exact absurd h hsn
    · rfl
  have hsk' : ba.secretKey.isEmpty = false := by
    rcases h : ba.secretKey with _ | ⟨c, cs⟩
    · exact absurd h hsk
    · rfl
  have hkey : BasicAuthServeHTTP env auth =
      cond (specAuthRejects env.b64 env.bcrypt (parseCreds raw) auth)
        (resp401 ba.name)
        (match env.nested with
         | .error e => httpError e 500
         | .ok resp => resp) := by
    simp only [BasicAuthServeHTTP, specAuthRejects, hba, hsn', hsk', hsec, hraw,
      Bool.or_self, Bool.false_eq_true, if_false]
    by_cases h1 : (auth.isEmpty || !hasLead basicScheme auth) = true
    · simp [h1]
    · simp only [h1, Bool.false_eq_true, if_false]
      rcases hb64 : env.b64 (trimLead basicScheme auth) with _ | dec
      · simp [hb64]
      · simp only [hb64]
        rcases hcut : cut ':' dec with _ | up
        · simp [hcut]
        · rcases up with ⟨user, pass⟩
          simp only [hcut]
          rcases hlk : lookupA (parseCreds raw) user with _ | hash
          · simp [hlk]
          · simp only [hlk]
            by_cases hbc : env.bcrypt hash pass = true
            · simp [hbc]
            · simp [hbc]
  constructor
  · intro htrue
    refine ⟨by simp [hkey, htrue], rfl, rfl, rfl⟩
  · intro hfalse
    simp [hkey, hfalse]

/-- C8 witness: an empty `Authorization` header against a concrete
BasicAuth object and credential secret is rejected with the challenge. -/
theorem c8_witness :
    BasicAuthServeHTTP
      ⟨some ⟨"my-basicauth", chars "sec", chars "key"⟩,
        some ⟨[(chars "key", chars "alice:h")]⟩,
        fun _ => none, fun _ _ => false, .ok ⟨200, "ok", []⟩⟩ [] =
      resp401 "my-basicauth" := by
  have h :=
    (c8_basicauth_rejects
      ⟨some ⟨"my-basicauth", chars "sec", chars "key"⟩,
        some ⟨[(chars "key", chars "alice:h")]⟩,
        fun _ => none, fun _ _ => false, .ok ⟨200, "ok", []⟩⟩ []
      ⟨"my-basicauth", chars "sec", chars "key"⟩
      ⟨[(chars "key", chars "alice:h")]⟩ (chars "alice:h")
      rfl (by decide) (by decide) rfl rfl).1 rfl
  exact h.1

theorem podLoop_keysNodup (key target : List Char) (pods : List PFPod) :
    ∀ st : PFState, keysNodup st.cache →
      keysNodup (podLoop key target pods st).2.cache := by
  induction pods with
  | nil => intro st h; exact h
  | cons pod rest ih =>
    intro st h
    by_cases hn : pod.newOk = true
    · by_cases hp : pod.portsOk = true
      · rcases hf : findForwarded pod.forwarded target with _ | lp
        · simpa [podLoop, hn, hp, hf] using ih ⟨st.cache, st.forwarders + 1⟩ h
        · simpa [podLoop, hn, hp, hf] using keysNodup_storeA st.cache key _ h
      · simpa [podLoop, hn, hp] using h
    · simpa [podLoop, hn] using h

theorem podLoop_ok (key target : List Char) (pods : List PFPod) :
    ∀ (st st2 : PFState) (a : List Char),
      podLoop key target pods st = (.ok a, st2) →
      lookupA st2.cache key = some a ∧ st.forwarders < st2.forwarders := by
  induction pods with
  | nil =>
    intro st st2 a h
    simp [podLoop] at h
  | cons pod rest ih =>
    intro st st2 a h
    by_cases hn : pod.newOk = true
    · by_cases hp : pod.portsOk = true
      · rcases hf : findForwarded pod.forwarded target with _ | lp
        · simp only [podLoop, hn, hp, hf, Bool.not_true, Bool.false_eq_true,
            if_false] at h
          have := ih ⟨st.cache, st.forwarders + 1⟩ st2 a h
          exact ⟨this.1, by have := this.2; simp at this; omega⟩
        · simp only [podLoop, hn, hp, hf, Bool.not_true, Bool.false_eq_true,
            if_false, Prod.mk.injEq] at h
          obtain ⟨ha, hst⟩ := h
          have ha' : chars "127.0.0.1:" ++ lp = a := by
            cases ha; rfl
          subst hst
          refine ⟨?_, by simp⟩
          rw [← ha']
          exact lookupA_storeA_self st.cache key _
      · simp [podLoop, hn, hp] at h
    · simp [podLoop, hn] at h

/-- C9: the port-forward cache keeps at most one local address per service
key (distinct-keys invariant preserved by every dispatch and by forwarder
exit); a dispatch whose key is cached returns the cached address with the
state — cache and live-forwarder count — unchanged; a forwarder exit
removes the key's entry; and a dispatch on a missing key that succeeds
caches the new address under the key and has started at least one new
forwarder. -/
theorem c9_portforward_cache :
    (∀ (env : PFEnv) (pn key addr : List Char) (st : PFState),
      lookupA st.cache key = some addr →
      HandlerForPortforward env pn key st = (.ok addr, st)) ∧
    (∀ (env : PFEnv) (pn key : List Char) (st : PFState),
      keysNodup st.cache →
      keysNodup (HandlerForPortforward env pn key st).2.cache) ∧
    (∀ (st : PFState) (key : List Char),
      keysNodup st.cache → keysNodup (forwarderExit st key).cache) ∧
    (∀ (st : PFState) (key : List Char),
      lookupA (forwarderExit st key).cache key = none) ∧
    (∀ (env : PFEnv) (pn key a : List Char) (st st2 : PFState),
      lookupA st.cache key = none →
      HandlerForPortforward env pn key st = (.ok a, st2) →
      lookupA st2.cache key = some a ∧ st.forwarders < st2.forwarders) := by
  refine ⟨?_, ?_, ?_, ?_, ?_⟩
  · intro env pn key addr st h
    simp [HandlerForPortforward, h]
  · intro env pn key st h
    rcases hl : lookupA st.cache key with _ | addr
    · rcases hs : env.svc with _ | svc
      · simpa [HandlerForPortforward, hl, hs] using h
      · by_cases htcp : (findPort svc.ports pn).protocolTCP = true
        · simpa [HandlerForPortforward, hl, hs, htcp] using
            podLoop_keysNodup key (findPort svc.ports pn).targetPort env.pods st h
        · simpa [HandlerForPortforward, hl, hs, htcp] using h
    · simpa [HandlerForPortforward, hl] using h
  · intro st key h
    exact keysNodup_eraseA st.cache key h
  · intro st key
    exact lookupA_eraseA_self st.cache key
  · intro env pn key a st st2 hmiss h
    rcases hs : env.svc with _ | svc
    · simp [HandlerForPortforward, hmiss, hs] at h
    · by_cases htcp : (findPort svc.ports pn).protocolTCP = true
      · simp only [HandlerForPortforward, hmiss, hs, htcp, Bool.not_true,
          Bool.false_eq_true, if_false] at h
        exact podLoop_ok key (findPort svc.ports pn).targetPort env.pods st st2 a h
      · simp [HandlerForPortforward, hmiss, hs, htcp] at h

/-- C9 witness: a cache hit returns the cached address unchanged; after the
forwarder exit the key is gone; and the next dispatch re-establishes and
caches the new address. -/
theorem c9_witness :
    HandlerForPortforward ⟨none, []⟩ [] (chars "svc")
        ⟨[(chars "svc", chars "127.0.0.1:9")], 1⟩ =
      (.ok (chars "127.0.0.1:9"), ⟨[(chars "svc", chars "127.0.0.1:9")], 1⟩) ∧
    lookupA (forwarderExit ⟨[(chars "svc", chars "127.0.0.1:9")], 1⟩
        (chars "svc")).cache (chars "svc") = none ∧
    lookupA ((HandlerForPortforward
        ⟨some ⟨[⟨chars "web", true, chars "80"⟩]⟩,
          [⟨true, true, [(chars "9999", chars "80")]⟩]⟩
        (chars "web") (chars "svc")
        (forwarderExit ⟨[(chars "svc", chars "127.0.0.1:9")], 1⟩
          (chars "svc"))).2).cache (chars "svc") =
      some (chars "127.0.0.1:9999") := by
  refine ⟨?_, ?_, ?_⟩
  · exact c9_portforward_cache.1 ⟨none, []⟩ [] (chars "svc") (chars "127.0.0.1:9")
      ⟨[(chars "svc", chars "127.0.0.1:9")], 1⟩ (by decide)
  · exact c9_portforward_cache.2.2.2.1 ⟨[(chars "svc", chars "127.0.0.1:9")], 1⟩
      (chars "svc")
  · have h := (c9_portforward_cache.2.2.2.2
      ⟨some ⟨[⟨chars "web", true, chars "80"⟩]⟩,
        [⟨true, true, [(chars "9999", chars "80")]⟩]⟩
      (chars "web") (chars "svc") (chars "127.0.0.1:9999")
      (forwarderExit ⟨[(chars "svc", chars "127.0.0.1:9")], 1⟩ (chars "svc"))
      ⟨[(chars "svc", chars "127.0.0.1:9999")], 1⟩ (by decide) rfl).1
    simpa using h
